import Mathlib

/-!
# Verification of `Fibonacci.c` (fast Fibonacci via matrix exponentiation)

A shallow embedding of `src/Fibonacci.c`.  The C program stores a symmetric
2x2 matrix `| a b | / | b c |` as three scalars of a floating-point type
`real`; here the exact-arithmetic stand-in for `real` is `ℤ` (the only
operations used are `+` and `*` and every value that arises is a
non-negative integer, so any exact commutative ring embeds the arithmetic
faithfully; floating-point rounding is out of scope of the exact-arithmetic
reading).

The `long` exponent of the C loop is embedded as `ℤ`.  On the twos-complement
machines the source targets, `index & 1` is nonzero exactly when `index` is
odd, and `index >>= 1` is an arithmetic (sign-extending) shift, i.e. floor
division by 2; the Lean `Int` `%` and `/` (`Int.emod` / `Int.ediv`) agree with
both for divisor 2, including on negative values.  The C `for(;;)` loop is
embedded with explicit fuel returning `Option`: `none` means the fuel ran out,
and a loop that returns `none` for every fuel does not terminate.
-/

/-- Exact-arithmetic stand-in for the C `real` floating-point type. -/
abbrev real := ℤ

/-- The symmetric matrix `| a b | / | b c |` held as three scalars,
mirroring the C arrays `real mat[3]`. -/
@[ext]
structure Triple where
  a : real
  b : real
  c : real
deriving DecidableEq, Repr

/-- Full 2x2 matrix `| x y | / | z w |`, used to state what the three-scalar
representation stands for. -/
@[ext]
structure Mat2 where
  x : real
  y : real
  z : real
  w : real
deriving DecidableEq, Repr

/-- The matrix a `Triple` represents. -/
def toMat2 (t : Triple) : Mat2 := ⟨t.a, t.b, t.b, t.c⟩

/-- True 2x2 matrix product. -/
def mat2Mul (m n : Mat2) : Mat2 :=
  ⟨m.x * n.x + m.y * n.z, m.x * n.y + m.y * n.w,
   m.z * n.x + m.w * n.z, m.z * n.y + m.w * n.w⟩

/-- The base matrix `| 1 1 | / | 1 0 |` as a full matrix. -/
def baseMat2 : Mat2 := ⟨1, 1, 1, 0⟩

/-- `matPow k` is the base matrix naively multiplied out to the k-th power
(`matPow 0` is the identity). -/
def matPow : ℕ → Mat2
  | 0 => ⟨1, 0, 0, 1⟩
  | k + 1 => mat2Mul (matPow k) baseMat2

/-- Embedding of `matrix_to2` (Fibonacci.c lines 113-123): square the
symmetric matrix in place, computing `b*b` once. -/
def matrix_to2 (mat : Triple) : Triple :=
  let a := mat.a
  let b := mat.b
  let b2 := b * b
  let c := mat.c
  ⟨a * a + b2, a * b + b * c, b2 + c * c⟩

/-- Embedding of `matrix_multiply` (Fibonacci.c lines 147-161): three-scalar
product of two symmetric matrices, computing `b*e` once. -/
def matrix_multiply (in1 in2 : Triple) : Triple :=
  let a := in1.a
  let b := in1.b
  let c := in1.c
  let d := in2.a
  let e := in2.b
  let f := in2.c
  let be := b * e
  ⟨a * d + be, a * e + b * f, be + c * f⟩

/-- The initial value `{1, 1, 0}` of both `mat` and `ret` in `fibonacci`. -/
def baseTriple : Triple := ⟨1, 1, 0⟩

/-- Embedding of the `for(;;)` loop of `fibonacci` (Fibonacci.c lines
226-239), with explicit fuel.  One fuel unit is one loop iteration; `none`
means the iteration budget was exhausted before the loop broke out.
`index % 2 = 1` embeds the twos-complement bit test `index & 1`, and
`index / 2` (floor division, as `Int./` has for positive divisor) embeds the
sign-extending shift `index >>= 1`. -/
def fibLoop : ℕ → ℤ → Triple → Triple → Option Triple
  | 0, _, _, _ => none
  | fuel + 1, index, mat, ret =>
    let ret' := if index % 2 = 1 then matrix_multiply ret mat else ret
    let index' := index / 2
    if index' = 0 then some ret'
    else fibLoop fuel index' (matrix_to2 mat) ret'

/-- Embedding of `fibonacci` (Fibonacci.c lines 210-242).  The fuel
`(index - 1).toNat + 1` is a termination bound only: it exceeds the bit
length of `index - 1` for every `index ≥ 2` (proved below), so for
non-negative arguments the option is always `some`; for negative arguments
the loop never breaks (proved below), matching the C non-termination. -/
def fibonacci (index : ℤ) : Option real :=
  if index = 0 then some 0
  else if index = 1 then some 1
  else (fibLoop ((index - 1).toNat + 1) (index - 1) baseTriple baseTriple).map Triple.b

/-- The matrix `base^k` for `k ≥ 1`, written with the Fibonacci numbers it
holds: `fibTriple k` represents `| F(k+1) F(k) | / | F(k) F(k-1) |`. -/
def fibTriple (k : ℕ) : Triple :=
  ⟨(Nat.fib (k + 1) : real), (Nat.fib k : real), (Nat.fib (k - 1) : real)⟩

/-- A triple that represents some power of the base matrix. -/
def isBasePowerT (t : Triple) : Prop := ∃ k, toMat2 t = matPow k

-- ## Basic lemmas

theorem to2_eq_mul_self (t : Triple) : matrix_to2 t = matrix_multiply t t := rfl

theorem baseTriple_eq_fibTriple : baseTriple = fibTriple 1 := by
  simp [baseTriple, fibTriple, Nat.fib]

theorem fibTriple_succ (k : ℕ) :
    fibTriple (k + 1) = ⟨(Nat.fib (k + 2) : real), (Nat.fib (k + 1) : real), (Nat.fib k : real)⟩ :=
  rfl

/-- `Nat.fib_add` cast into the scalar field. -/
theorem fib_addQ (m n : ℕ) :
    (Nat.fib (m + n + 1) : real)
      = Nat.fib m * Nat.fib n + Nat.fib (m + 1) * Nat.fib (n + 1) := by
  exact_mod_cast congrArg (Nat.cast : ℕ → ℤ) (Nat.fib_add m n)

/-- `matrix_multiply` on powers of the base matrix adds the exponents. -/
theorem matrix_multiply_fibTriple (j k : ℕ) (hj : 1 ≤ j) (hk : 1 ≤ k) :
    matrix_multiply (fibTriple j) (fibTriple k) = fibTriple (j + k) := by
  obtain ⟨j, rfl⟩ : ∃ j', j = j' + 1 := ⟨j - 1, by omega⟩
  obtain ⟨k, rfl⟩ : ∃ k', k = k' + 1 := ⟨k - 1, by omega⟩
  have hx := fib_addQ (j + 1) (k + 1)
  have hy := fib_addQ (j + 1) k
  have hz := fib_addQ j k
  rw [show j + 1 + (k + 1) + 1 = j + k + 3 by omega] at hx
  rw [show j + 1 + k + 1 = j + k + 2 by omega] at hy
  simp only [show j + 1 + 1 = j + 2 from by omega,
    show k + 1 + 1 = k + 2 from by omega] at hx hy hz
  show Triple.mk _ _ _ = Triple.mk _ _ _
  rw [show j + 1 + (k + 1) = j + k + 2 by omega]
  simp only [matrix_multiply, fibTriple_succ, Triple.mk.injEq]
  refine ⟨?_, ?_, ?_⟩
  · rw [show j + k + 2 + 1 = j + k + 3 by omega]
    linear_combination -hx
  · linear_combination -hy
  · rw [show j + k + 2 - 1 = j + k + 1 by omega]
    linear_combination -hz

/-- `matrix_to2` on a power of the base matrix doubles the exponent. -/
theorem matrix_to2_fibTriple (p : ℕ) (hp : 1 ≤ p) :
    matrix_to2 (fibTriple p) = fibTriple (p + p) := by
  rw [to2_eq_mul_self, matrix_multiply_fibTriple p p hp hp]

-- ## The loop invariant

/-- Invariant of the binary-decomposition loop: started with `mat = base^p`
and `ret = base^r` and a positive exponent `e` that fits in `fuel` bits, the
loop terminates and returns `base^(r + e*p)`. -/
theorem fibLoop_fibTriple (fuel : ℕ) : ∀ (e p r : ℕ), 1 ≤ e → 1 ≤ p → 1 ≤ r →
    e < 2 ^ fuel →
    fibLoop fuel (e : ℤ) (fibTriple p) (fibTriple r)
      = some (fibTriple (r + e * p)) := by
  induction fuel with
  | zero =>
    intro e p r he _ _ hlt
    simp only [pow_zero] at hlt
    omega
  | succ f ih =>
    intro e p r he hp hr hlt
    rw [pow_succ] at hlt
    rcases Nat.even_or_odd e with ⟨d, hd⟩ | ⟨d, hd⟩
    · -- e = 2*d with d ≥ 1: the bit is clear, the loop recurses on d
      have hd' : e = 2 * d := by omega
      subst hd'
      have hdlt : d < 2 ^ f := by omega
      have hmod : ¬ ((2 * d : ℕ) : ℤ) % 2 = 1 := by omega
      have hdiv : ((2 * d : ℕ) : ℤ) / 2 = ((d : ℕ) : ℤ) := by omega
      have hd0 : ¬ ((d : ℕ) : ℤ) = 0 := by omega
      simp only [fibLoop, if_neg hmod, hdiv, if_neg hd0]
      rw [matrix_to2_fibTriple p hp,
        ih d (p + p) r (by omega) (by omega) hr hdlt]
      congr 1
      rw [show r + d * (p + p) = r + 2 * d * p by ring]
    · -- e = 2*d + 1: the bit is set, the accumulator picks up base^p
      subst hd
      have hmod : ((2 * d + 1 : ℕ) : ℤ) % 2 = 1 := by omega
      have hdiv : ((2 * d + 1 : ℕ) : ℤ) / 2 = ((d : ℕ) : ℤ) := by omega
      rcases Nat.eq_zero_or_pos d with hd0 | hd0
      · -- e = 1: last iteration, the loop breaks
        subst hd0
        simp only [fibLoop, if_pos hmod, hdiv]
        rw [if_pos (by omega : ((0 : ℕ) : ℤ) = 0),
          matrix_multiply_fibTriple r p hr hp]
        congr 1
        rw [show r + p = r + (2 * 0 + 1) * p by ring]
      · have hdlt : d < 2 ^ f := by omega
        have hd0' : ¬ ((d : ℕ) : ℤ) = 0 := by omega
        simp only [fibLoop, if_pos hmod, hdiv, if_neg hd0']
        rw [matrix_to2_fibTriple p hp, matrix_multiply_fibTriple r p hr hp,
          ih d (p + p) (r + p) (by omega) (by omega) (by omega) hdlt]
        congr 1
        rw [show r + p + d * (p + p) = r + (2 * d + 1) * p by ring]

/-- A negative exponent never reaches 0 under the sign-extending shift: the
loop exhausts any fuel, i.e. it does not terminate. -/
theorem fibLoop_neg_none (fuel : ℕ) : ∀ (index : ℤ) (mat ret : Triple),
    index < 0 → fibLoop fuel index mat ret = none := by
  induction fuel with
  | zero => intro index mat ret _; rfl
  | succ f ih =>
    intro index mat ret hneg
    have hdiv : index / 2 < 0 := by omega
    simp only [fibLoop, if_neg (by omega : ¬ index / 2 = 0)]
    exact ih (index / 2) _ _ hdiv

-- ## What the representation stands for

/-- Entries of the k-th naive power of the base matrix, `k ≥ 1`:
the Fibonacci identity `base^k = | F(k+1) F(k) | / | F(k) F(k-1) |`. -/
theorem matPow_succ_fib (k : ℕ) :
    matPow (k + 1)
      = ⟨(Nat.fib (k + 2) : real), (Nat.fib (k + 1) : real),
         (Nat.fib (k + 1) : real), (Nat.fib k : real)⟩ := by
  induction k with
  | zero => simp [matPow, mat2Mul, baseMat2, Nat.fib]
  | succ n ihn =>
    have hq1 : (Nat.fib (n + 3) : real) = Nat.fib (n + 1) + Nat.fib (n + 2) := by
      have h := @Nat.fib_add_two (n + 1)
      rw [show n + 1 + 2 = n + 3 by omega] at h
      exact_mod_cast congrArg (Nat.cast : ℕ → ℤ) h
    have hq2 : (Nat.fib (n + 2) : real) = Nat.fib n + Nat.fib (n + 1) := by
      exact_mod_cast congrArg (Nat.cast : ℕ → ℤ) (@Nat.fib_add_two n)
    show mat2Mul (matPow (n + 1)) baseMat2 = _
    rw [ihn, show n + 1 + 1 = n + 2 by omega, show n + 1 + 2 = n + 3 by omega]
    simp only [mat2Mul, baseMat2, Mat2.mk.injEq]
    refine ⟨by linear_combination -hq1, by ring, by linear_combination -hq2, by ring⟩

/-- `fibTriple` is exactly the three-scalar form of the naive power. -/
theorem toMat2_fibTriple (k : ℕ) : toMat2 (fibTriple (k + 1)) = matPow (k + 1) := by
  rw [matPow_succ_fib, fibTriple_succ]
  rfl

/-- The three-scalar representation is faithful: equal matrices come from
equal triples. -/
theorem toMat2_inj (s t : Triple) (h : toMat2 s = toMat2 t) : s = t := by
  obtain ⟨a, b, c⟩ := s
  obtain ⟨d, e, f⟩ := t
  simp only [toMat2, Mat2.mk.injEq] at h
  simp only [Triple.mk.injEq]
  exact ⟨h.1, h.2.1, h.2.2.2⟩

/-- Every triple representing a power of the base matrix is either the
identity or `fibTriple (k+1)` for some `k`. -/
theorem isBasePowerT_cases (t : Triple) (h : isBasePowerT t) :
    t = ⟨1, 0, 1⟩ ∨ ∃ k, t = fibTriple (k + 1) := by
  obtain ⟨k, hk⟩ := h
  cases k with
  | zero =>
    left
    exact toMat2_inj t ⟨1, 0, 1⟩ hk
  | succ n =>
    right
    exact ⟨n, toMat2_inj t (fibTriple (n + 1)) (hk.trans (toMat2_fibTriple n).symm)⟩

-- ## Correctness of `fibonacci`

/-- For every non-negative argument, `fibonacci` computes the exact `n`-th
Fibonacci number (shared workhorse lemma). -/
theorem fibonacci_eq_fib (n : ℤ) (hn : 0 ≤ n) :
    fibonacci n = some ((Nat.fib n.toNat : real)) := by
  rcases eq_or_lt_of_le hn with h0 | h1
  · rw [fibonacci, if_pos h0.symm, ← h0]
    norm_num [Nat.fib]
  rcases eq_or_lt_of_le (by omega : (1 : ℤ) ≤ n) with h1' | h2
  · rw [fibonacci, if_neg (by omega), if_pos h1'.symm, ← h1']
    norm_num [Nat.fib]
  -- n ≥ 2: the loop runs on e = n - 1 ≥ 1
  have he : (n - 1).toNat = n.toNat - 1 := by omega
  set e : ℕ := (n - 1).toNat with hedef
  have he1 : 1 ≤ e := by omega
  have hcast : (n - 1 : ℤ) = (e : ℤ) := by omega
  have hfuel : e < 2 ^ (e + 1) :=
    lt_of_lt_of_le (Nat.lt_two_pow e) (Nat.pow_le_pow_right (by omega) (by omega))
  rw [fibonacci, if_neg (by omega), if_neg (by omega), hcast,
    baseTriple_eq_fibTriple, Int.toNat_natCast,
    fibLoop_fibTriple (e + 1) e 1 1 he1 (by omega) (by omega) hfuel,
    show 1 + e * 1 = n.toNat by omega]
  rfl

-- ## A store model for the aliased call `matrix_multiply(ret, ret, mat)`

/-- A flat store of `real` cells addressed by naturals; a `real*` is an
address into it. -/
abbrev Store := ℕ → real

/-- The three cells of a matrix starting at address `p`. -/
def readTriple (σ : Store) (p : ℕ) : Triple := ⟨σ p, σ (p + 1), σ (p + 2)⟩

/-- `matrix_multiply` at the memory level: exactly as in the C body, the six
input scalars are loaded into locals first, and only then are the three
output cells written, in order. -/
def matrix_multiply_mem (σ : Store) (out in1 in2 : ℕ) : Store :=
  let a := σ in1
  let b := σ (in1 + 1)
  let c := σ (in1 + 2)
  let d := σ in2
  let e := σ (in2 + 1)
  let f := σ (in2 + 2)
  let be := b * e
  Function.update (Function.update (Function.update σ out (a * d + be))
    (out + 1) (a * e + b * f)) (out + 2) (be + c * f)

-- ## A model of the ambient process state around a call

/-- A call to `fibonacci` as seen from the rest of the process: the function
body references no global, so an arbitrary ambient mutable state `globals`
passes through a call unchanged and the returned value cannot depend on it. -/
def fibonacci_call {σ : Type} (globals : σ) (index : ℤ) : σ × Option real :=
  (globals, fibonacci index)

-- ## Claims

/-- C1: for every integer index `n ≥ 0`, `fibonacci n` returns the exact
`n`-th Fibonacci number (exact arithmetic in place of floating point), and
for `n ≥ 2` that value is the top-right entry of the `n`-th naive power of
the base matrix `| 1 1 | / | 1 0 |`. -/
theorem fibonacci_returns_nth_fib (n : ℤ) (hn : 0 ≤ n) :
    fibonacci n = some ((Nat.fib n.toNat : real))
      ∧ (2 ≤ n → fibonacci n = some ((matPow n.toNat).y)) := by
  refine ⟨fibonacci_eq_fib n hn, fun h2 => ?_⟩
  obtain ⟨m, hm⟩ : ∃ m, n.toNat = m + 1 := ⟨n.toNat - 1, by omega⟩
  rw [fibonacci_eq_fib n hn, hm, matPow_succ_fib m]

theorem fibonacci_returns_nth_fib_witness :
    fibonacci 10 = some ((Nat.fib (10 : ℤ).toNat : real))
      ∧ (2 ≤ (10 : ℤ) → fibonacci 10 = some ((matPow (10 : ℤ).toNat).y)) :=
  fibonacci_returns_nth_fib 10 (by norm_num)

/-- C2 counterexample: with exponent `e = 1` (one loop iteration, fuel 1
suffices) and both matrices seeded with the base matrix, the accumulator of
the loop is `base^2`, not `base^1` as the claim states. -/
theorem loop_power_counterexample :
    (fibLoop 1 (1 : ℤ) baseTriple baseTriple).map toMat2 ≠ some (matPow 1) := by
  decide

/-- C2 amended: with exponent `e ≥ 1` and both the accumulator and the
power-of-two matrix initialized to the base matrix, the loop terminates
(whenever the fuel covers the bit length of `e`) with the accumulator equal
to the base matrix raised to the `(e+1)`-th power — `matPow` being the naive
repeated multiplication by the base matrix.  In particular for `k = 1..15`
the result of the loop is the matrix obtained by multiplying the base matrix by
itself `k` times. -/
theorem loop_power_succ (e fuel : ℕ) (he : 1 ≤ e) (hfuel : e < 2 ^ fuel) :
    (fibLoop fuel (e : ℤ) baseTriple baseTriple).map toMat2
      = some (matPow (e + 1)) := by
  rw [baseTriple_eq_fibTriple,
    fibLoop_fibTriple fuel e 1 1 he (by omega) (by omega) hfuel,
    show 1 + e * 1 = e + 1 by ring]
  obtain ⟨m, hm⟩ : ∃ m, e = m + 1 := ⟨e - 1, by omega⟩
  subst hm
  rw [show m + 1 + 1 = m + 2 by ring, Option.map_some', toMat2_fibTriple (m + 1)]

theorem loop_power_succ_witness :
    (fibLoop 4 ((15 : ℕ) : ℤ) baseTriple baseTriple).map toMat2
      = some (matPow (15 + 1)) :=
  loop_power_succ 15 4 (by norm_num) (by norm_num)

/-- C3: squaring a power of the base matrix via `matrix_to2` gives exactly
the three scalars `matrix_multiply` gives for the matrix times itself. -/
theorem matrix_to2_consistent (M : Triple) (hM : isBasePowerT M) :
    matrix_to2 M = matrix_multiply M M :=
  hM.elim fun _ _ => to2_eq_mul_self M

theorem matrix_to2_consistent_witness :
    matrix_to2 baseTriple = matrix_multiply baseTriple baseTriple :=
  matrix_to2_consistent baseTriple ⟨1, by decide⟩

/-- Shared step for C4: once the two off-diagonal entries of the true
product agree, the three-scalar result represents the full 2x2 product. -/
theorem matrix_multiply_represents (t1 t2 : Triple)
    (h : t1.a * t2.b + t1.b * t2.c = t1.b * t2.a + t1.c * t2.b) :
    toMat2 (matrix_multiply t1 t2) = mat2Mul (toMat2 t1) (toMat2 t2) := by
  obtain ⟨a, b, c⟩ := t1
  obtain ⟨d, e, f⟩ := t2
  simp only at h
  ext <;> simp only [toMat2, matrix_multiply, mat2Mul]
  linear_combination h

/-- Shared step for C4: the cross identity on Fibonacci entries. -/
theorem fib_cross_identity (j k : ℕ) :
    (Nat.fib (j + 2) : real) * Nat.fib (k + 1) + Nat.fib (j + 1) * Nat.fib k
      = Nat.fib (j + 1) * Nat.fib (k + 2) + Nat.fib j * Nat.fib (k + 1) := by
  have hy := fib_addQ (j + 1) k
  have hy2 := fib_addQ j (k + 1)
  rw [show j + 1 + k + 1 = j + k + 2 by omega] at hy
  rw [show j + (k + 1) + 1 = j + k + 2 by omega] at hy2
  simp only [show j + 1 + 1 = j + 2 from by omega,
    show k + 1 + 1 = k + 2 from by omega] at hy hy2
  linear_combination hy2 - hy

/-- C4: for two matrices that are powers of the base matrix, the top-right
and bottom-left entries of their true 2x2 product coincide, so the
three-scalar `matrix_multiply` result represents the full product (and the
product matrix is again symmetric by construction). -/
theorem matrix_multiply_cross_symmetric (t1 t2 : Triple)
    (h1 : isBasePowerT t1) (h2 : isBasePowerT t2) :
    t1.a * t2.b + t1.b * t2.c = t1.b * t2.a + t1.c * t2.b
      ∧ toMat2 (matrix_multiply t1 t2) = mat2Mul (toMat2 t1) (toMat2 t2) := by
  have hcross : t1.a * t2.b + t1.b * t2.c = t1.b * t2.a + t1.c * t2.b := by
    rcases isBasePowerT_cases t1 h1 with rfl | ⟨j, rfl⟩
    · obtain ⟨d, e, f⟩ := t2
      simp only
      ring
    · rcases isBasePowerT_cases t2 h2 with rfl | ⟨k, rfl⟩
      · simp only [fibTriple_succ]
        ring
      · simp only [fibTriple_succ]
        exact fib_cross_identity j k
  exact ⟨hcross, matrix_multiply_represents t1 t2 hcross⟩

theorem matrix_multiply_cross_symmetric_witness :
    baseTriple.a * baseTriple.b + baseTriple.b * baseTriple.c
        = baseTriple.b * baseTriple.a + baseTriple.c * baseTriple.b
      ∧ toMat2 (matrix_multiply baseTriple baseTriple)
        = mat2Mul (toMat2 baseTriple) (toMat2 baseTriple) :=
  matrix_multiply_cross_symmetric baseTriple baseTriple ⟨1, by decide⟩ ⟨1, by decide⟩

/-- C5: once a negative index reaches the loop, the sign-extending shift
keeps it negative, the break condition never fires, and the loop exhausts
every finite iteration budget: it does not terminate. -/
theorem negative_index_loop_diverges (index : ℤ) (hneg : index < 0)
    (fuel : ℕ) (mat ret : Triple) : fibLoop fuel index mat ret = none :=
  fibLoop_neg_none fuel index mat ret hneg

theorem negative_index_loop_diverges_witness :
    fibLoop 5 (-1 : ℤ) baseTriple baseTriple = none :=
  negative_index_loop_diverges (-1) (by norm_num) 5 baseTriple baseTriple

/-- C6: for every non-negative index `fibonacci` terminates with a value,
and for `n ≥ 2` a fuel equal to the bit length of `n - 1`
(`Nat.log 2 (n-1) + 1` iterations) already lets the loop finish: the
iteration count is logarithmic in `n`. -/
theorem fibonacci_terminates_log_bound (n : ℤ) (hn : 0 ≤ n) :
    (∃ v, fibonacci n = some v)
      ∧ (2 ≤ n → ∃ t, fibLoop (Nat.log 2 (n - 1).toNat + 1) (n - 1)
          baseTriple baseTriple = some t) := by
  constructor
  · exact ⟨_, fibonacci_eq_fib n hn⟩
  · intro h2
    have hcast : (n - 1 : ℤ) = (((n - 1).toNat : ℕ) : ℤ) := by omega
    have hbit : (n - 1).toNat < 2 ^ (Nat.log 2 (n - 1).toNat + 1) :=
      Nat.lt_pow_succ_log_self (by norm_num) _
    rw [hcast, baseTriple_eq_fibTriple]
    exact ⟨_, fibLoop_fibTriple _ _ 1 1 (by omega) (by omega) (by omega) hbit⟩

theorem fibonacci_terminates_log_bound_witness :
    (∃ v, fibonacci 20 = some v)
      ∧ (2 ≤ (20 : ℤ) → ∃ t, fibLoop (Nat.log 2 ((20 : ℤ) - 1).toNat + 1)
          ((20 : ℤ) - 1) baseTriple baseTriple = some t) :=
  fibonacci_terminates_log_bound 20 (by norm_num)

/-- C7: `fibonacci` short-circuits to exactly 0 at index 0 and exactly 1 at
index 1, and returns the exact values F(2)=1, F(3)=2, F(10)=55, F(20)=6765. -/
theorem fibonacci_small_values :
    fibonacci 0 = some 0 ∧ fibonacci 1 = some 1 ∧ fibonacci 2 = some 1
      ∧ fibonacci 3 = some 2 ∧ fibonacci 10 = some 55
      ∧ fibonacci 20 = some 6765 := by
  refine ⟨rfl, rfl, ?_, ?_, ?_, ?_⟩ <;> decide

/-- C8: for every index `n ≥ 2` the three returned values satisfy the
Fibonacci recurrence exactly: `fibonacci n = fibonacci (n-1) + fibonacci (n-2)`. -/
theorem fibonacci_recurrence (n : ℤ) (h2 : 2 ≤ n) :
    ∃ x y z : real, fibonacci (n - 2) = some x ∧ fibonacci (n - 1) = some y
      ∧ fibonacci n = some z ∧ z = y + x := by
  refine ⟨_, _, _, fibonacci_eq_fib (n - 2) (by omega),
    fibonacci_eq_fib (n - 1) (by omega), fibonacci_eq_fib n (by omega), ?_⟩
  have hfib : Nat.fib n.toNat = Nat.fib (n - 1).toNat + Nat.fib (n - 2).toNat := by
    have h := @Nat.fib_add_two (n.toNat - 2)
    rw [show n.toNat - 2 + 2 = n.toNat by omega] at h
    rw [show (n - 1).toNat = n.toNat - 2 + 1 by omega,
      show (n - 2).toNat = n.toNat - 2 by omega, Nat.add_comm]
    exact h
  exact_mod_cast congrArg (Nat.cast : ℕ → ℤ) hfib

theorem fibonacci_recurrence_witness :
    ∃ x y z : real, fibonacci (10 - 2) = some x ∧ fibonacci (10 - 1) = some y
      ∧ fibonacci 10 = some z ∧ z = y + x :=
  fibonacci_recurrence 10 (by norm_num)

/-- C9: a call to `fibonacci` leaves any ambient mutable state unchanged and
its result does not depend on it, so two successive calls with the same
index return identical values. -/
theorem fibonacci_call_idempotent {σ : Type} (g : σ) (n : ℤ) :
    (fibonacci_call g n).2 = (fibonacci_call (fibonacci_call g n).1 n).2
      ∧ (fibonacci_call g n).1 = g :=
  ⟨rfl, rfl⟩

/-- C10: `matrix_multiply` with the output pointer aliasing the first input
(the call `matrix_multiply(ret, ret, mat)` in the loop) still stores the
product of the pre-call values, because all six scalars are loaded before
the first write; the cells of the second operand are untouched. -/
theorem matrix_multiply_aliased (σ : Store) (out in2 : ℕ)
    (hdisj : out + 2 < in2 ∨ in2 + 2 < out) :
    readTriple (matrix_multiply_mem σ out out in2) out
        = matrix_multiply (readTriple σ out) (readTriple σ in2)
      ∧ readTriple (matrix_multiply_mem σ out out in2) in2
        = readTriple σ in2 := by
  constructor <;>
    · simp only [readTriple, matrix_multiply_mem, matrix_multiply,
        Function.update_apply, Triple.mk.injEq]
      refine ⟨?_, ?_, ?_⟩ <;>
        · split_ifs <;> first | rfl | omega

theorem matrix_multiply_aliased_witness :
    readTriple (matrix_multiply_mem (fun i => (i : real)) 0 0 3) 0
        = matrix_multiply (readTriple (fun i => (i : real)) 0)
            (readTriple (fun i => (i : real)) 3)
      ∧ readTriple (matrix_multiply_mem (fun i => (i : real)) 0 0 3) 3
        = readTriple (fun i => (i : real)) 3 :=
  matrix_multiply_aliased (fun i => (i : real)) 0 3 (by norm_num)
